import Mathlib

/-!
Verification of the polymarket-lmsr-bot core pipeline.

Shallow embedding of the domain primitives (Kelly sizing, fee curve,
LMSR pricing), the risk manager state machine, the order manager rate
limiter, the feed fan-in debounce logic, and the arbitrage engine's
`process_update` pipeline. `f64`/`Decimal` arithmetic is modelled over
`ℚ`; `Decimal::round_dp(2)` is modelled by round-half-even at two
decimal places; wall-clock instants are modelled as natural-number
milliseconds passed explicitly.
-/

namespace PolyBot

/-- Round-half-even (banker's rounding) of a rational to an integer,
modelling `rust_decimal`'s `MidpointNearestEven` strategy. -/
def roundHalfEven (q : ℚ) : ℤ :=
  if q - ⌊q⌋ < 1/2 then ⌊q⌋
  else if q - ⌊q⌋ > 1/2 then ⌊q⌋ + 1
  else if ⌊q⌋ % 2 = 0 then ⌊q⌋ else ⌊q⌋ + 1

/-- Embeds `Decimal::round_dp(2)`: round to two decimal places, ties to even. -/
def roundDp2 (q : ℚ) : ℚ := (roundHalfEven (q * 100) : ℚ) / 100

theorem abs_roundHalfEven_sub_le (q : ℚ) :
    |(roundHalfEven q : ℚ) - q| ≤ 1/2 := by
  have h0 : (⌊q⌋ : ℚ) ≤ q := Int.floor_le q
  have h1 : q < ⌊q⌋ + 1 := Int.lt_floor_add_one q
  unfold roundHalfEven
  split_ifs with hr hr2 he <;> rw [abs_le] <;> push_cast <;>
    constructor <;> linarith

theorem roundHalfEven_nonneg {q : ℚ} (hq : 0 ≤ q) :
    (0 : ℚ) ≤ (roundHalfEven q : ℚ) := by
  have h0 : (0 : ℚ) ≤ (⌊q⌋ : ℚ) := by
    exact_mod_cast Int.floor_nonneg.mpr hq
  unfold roundHalfEven
  split_ifs <;> push_cast <;> linarith

theorem abs_roundDp2_sub_le (q : ℚ) : |roundDp2 q - q| ≤ 1/200 := by
  have h := abs_roundHalfEven_sub_le (q * 100)
  unfold roundDp2
  rw [show (roundHalfEven (q * 100) : ℚ) / 100 - q
        = ((roundHalfEven (q * 100) : ℚ) - q * 100) / 100 by ring,
    abs_div]
  rw [abs_of_pos (by norm_num : (0:ℚ) < 100)]
  linarith

theorem roundDp2_nonneg {q : ℚ} (hq : 0 ≤ q) : 0 ≤ roundDp2 q := by
  have := roundHalfEven_nonneg (q := q * 100) (by linarith)
  unfold roundDp2
  positivity

theorem roundDp2_zero : roundDp2 0 = 0 := by
  unfold roundDp2 roundHalfEven
  norm_num

/-- Embeds `KellyCriterion` (src/domain/kelly.rs): fractional-Kelly calculator. -/
structure KellyCriterion where
  fraction : ℚ
  maxPositionFraction : ℚ

/-- Embeds `KellyCriterion::default()`: quarter-Kelly, 6.25% max position. -/
def KellyCriterion.default : KellyCriterion :=
  { fraction := 1/4, maxPositionFraction := 1/16 }

/-- The unclamped binary-outcome Kelly fraction
`(p·b − q)/b` with `b = (1 − market)/market`, `q = 1 − p`
(the `b`/`q`/`full_kelly` locals of kelly.rs lines 51-54). -/
def kellyFull (estimatedProb marketPrice : ℚ) : ℚ :=
  (estimatedProb * ((1 - marketPrice) / marketPrice) -
      (1 - estimatedProb)) /
    ((1 - marketPrice) / marketPrice)

/-- Embeds `KellyCriterion::optimal_fraction` (kelly.rs lines 42-62). -/
def KellyCriterion.optimal_fraction (kc : KellyCriterion)
    (estimatedProb marketPrice : ℚ) : ℚ :=
  if marketPrice ≤ 0 ∨ 1 ≤ marketPrice then 0
  else if kellyFull estimatedProb marketPrice ≤ 0 then 0
  else min (kellyFull estimatedProb marketPrice * kc.fraction)
    kc.maxPositionFraction

/-- Embeds `KellyCriterion::position_size_usdc` (kelly.rs lines 65-73). -/
def KellyCriterion.position_size_usdc (kc : KellyCriterion)
    (bankroll estimatedProb marketPrice : ℚ) : ℚ :=
  roundDp2 (bankroll * kc.optimal_fraction estimatedProb marketPrice)

/-- Embeds `FeeCalculator` (src/domain/fees.rs). -/
structure FeeCalculator where
  feeRate : ℚ
  exponent : ℕ
  isMaker : Bool

/-- Embeds `FeeCalculator::new_maker` (fees.rs 42-48). -/
def FeeCalculator.new_maker : FeeCalculator :=
  { feeRate := 1/400, exponent := 2, isMaker := true }

/-- Embeds `FeeCalculator::standard` (fees.rs 51-57). -/
def FeeCalculator.standard : FeeCalculator :=
  { feeRate := 1/400, exponent := 2, isMaker := false }

/-- Embeds `FeeCalculator::taker_fee` (fees.rs 71-85). `taker_fee_f64`
(fees.rs 132-140) computes the identical formula with the identical
guard, so this single definition models both. -/
def FeeCalculator.taker_fee (c : FeeCalculator) (price size : ℚ) : ℚ :=
  if price ≤ 0 ∨ 1 ≤ price then 0
  else c.feeRate * (price ^ c.exponent * (1 - price) ^ c.exponent) * size

/-- Embeds `FeeCalculator::net_edge` (fees.rs 117-129). -/
def FeeCalculator.net_edge (c : FeeCalculator)
    (fairValue marketPrice : ℚ) (isBuy : Bool) : ℚ :=
  let fee := if c.isMaker then 0 else c.taker_fee marketPrice 1
  if isBuy then fairValue - marketPrice - fee
  else marketPrice - fairValue - fee

/-- Embeds `LmsrModel::detect_edge` (src/domain/lmsr.rs 98-106):
`(edge / market_price_yes * 100).abs()` where `edge = fair - market`. -/
def LmsrModel.detect_edge (marketPriceYes fairPriceYes : ℚ) : ℚ :=
  |(fairPriceYes - marketPriceYes) / marketPriceYes * 100|

/-- Embeds `LmsrPricer::detect_edge` (src/domain/lmsr.rs 145-147):
`((fair_price - market_price) / market_price).abs()`. -/
def LmsrPricer.detect_edge (marketPrice fairPrice : ℚ) : ℚ :=
  |(fairPrice - marketPrice) / marketPrice|

/-- Embeds `LmsrPricer::price` (src/domain/lmsr.rs 135-142):
clamp the estimated probability to `[0.01, 0.99]` and return it. -/
def LmsrPricer.price (estimatedProb : ℚ) : ℚ :=
  min (max estimatedProb (1/100)) (99/100)

section KellyLemmas

theorem optimal_fraction_nonneg_le (kc : KellyCriterion)
    (hf : 0 ≤ kc.fraction) (hm : 0 ≤ kc.maxPositionFraction)
    (p market : ℚ) :
    0 ≤ kc.optimal_fraction p market ∧
      kc.optimal_fraction p market ≤ kc.maxPositionFraction := by
  unfold KellyCriterion.optimal_fraction
  split_ifs with h1 h2
  · exact ⟨le_refl 0, hm⟩
  · exact ⟨le_refl 0, hm⟩
  · push_neg at h2
    constructor
    · exact le_min (mul_nonneg h2.le hf) hm
    · exact min_le_right _ _

theorem optimal_fraction_zero_of_no_edge (kc : KellyCriterion)
    {p market : ℚ} (hpm : p ≤ market) :
    kc.optimal_fraction p market = 0 := by
  unfold KellyCriterion.optimal_fraction
  split_ifs with h1 h2
  · rfl
  · rfl
  · exfalso
    push_neg at h1 h2
    obtain ⟨hm0, hm1⟩ := h1
    have hb : 0 < (1 - market) / market :=
      div_pos (by linarith) hm0
    have hnum : p * ((1 - market) / market) - (1 - p) ≤ 0 := by
      have hfrac : (p * (1 - market)) / market ≤ 1 - p := by
        rw [div_le_iff₀ hm0]
        nlinarith
      have hemb : p * ((1 - market) / market) =
          (p * (1 - market)) / market := by ring
      rw [hemb]
      linarith
    have : kellyFull p market ≤ 0 := by
      unfold kellyFull
      exact div_nonpos_iff.mpr (Or.inr ⟨hnum, hb.le⟩)
    linarith

end KellyLemmas

/-- C2 (counterexample): the claimed Kelly contract fails on the code.
With the default quarter-Kelly configuration, a negative bankroll of
−100 at `p = 0.6`, `market = 0.5` yields size −5, not 0; and at
bankroll 100.1 with `p = 0.7`, `market = 0.5` the clamped fraction is
1/16 but the two-decimal rounding returns 6.26, which exceeds
`bankroll · max_fraction = 6.25625`. -/
theorem kelly_claimed_contract_fails :
    KellyCriterion.default.position_size_usdc (-100) (3/5) (1/2) ≠ 0 ∧
    (1001/10 : ℚ) * KellyCriterion.default.maxPositionFraction <
      KellyCriterion.default.position_size_usdc (1001/10) (7/10) (1/2) := by
  constructor
  · norm_num [KellyCriterion.position_size_usdc,
      KellyCriterion.optimal_fraction, kellyFull, KellyCriterion.default,
      roundDp2, roundHalfEven]
  · norm_num [KellyCriterion.position_size_usdc,
      KellyCriterion.optimal_fraction, kellyFull, KellyCriterion.default,
      roundDp2, roundHalfEven]

/-- C2 (amended): for nonnegative Kelly parameters, the position size
is 0 whenever `p ≤ market`, whenever `market ∉ (0,1)`, and whenever
`bankroll = 0`; and for every nonnegative bankroll the size is
nonnegative and never exceeds `bankroll · max_fraction` by more than
the 0.005 two-decimal rounding slack (max_fraction = 0.0625 by
default). -/
theorem kelly_size_zero_and_capped (kc : KellyCriterion)
    (hf : 0 ≤ kc.fraction) (hm : 0 ≤ kc.maxPositionFraction)
    (p market bankroll : ℚ) :
    (p ≤ market → kc.position_size_usdc bankroll p market = 0) ∧
    (market ≤ 0 ∨ 1 ≤ market →
      kc.position_size_usdc bankroll p market = 0) ∧
    (bankroll = 0 → kc.position_size_usdc bankroll p market = 0) ∧
    (0 ≤ bankroll →
      0 ≤ kc.position_size_usdc bankroll p market ∧
      kc.position_size_usdc bankroll p market ≤
        bankroll * kc.maxPositionFraction + 1/200) := by
  obtain ⟨hge0, hlem⟩ := optimal_fraction_nonneg_le kc hf hm p market
  refine ⟨?_, ?_, ?_, ?_⟩
  · intro hpm
    unfold KellyCriterion.position_size_usdc
    rw [optimal_fraction_zero_of_no_edge kc hpm, mul_zero, roundDp2_zero]
  · intro hrange
    unfold KellyCriterion.position_size_usdc KellyCriterion.optimal_fraction
    rw [if_pos hrange, mul_zero, roundDp2_zero]
  · intro hb
    unfold KellyCriterion.position_size_usdc
    rw [hb, zero_mul, roundDp2_zero]
  · intro hb
    unfold KellyCriterion.position_size_usdc
    constructor
    · exact roundDp2_nonneg (mul_nonneg hb hge0)
    · have habs := abs_roundDp2_sub_le
        (bankroll * kc.optimal_fraction p market)
      rw [abs_le] at habs
      have hmul : bankroll * kc.optimal_fraction p market ≤
          bankroll * kc.maxPositionFraction :=
        mul_le_mul_of_nonneg_left hlem hb
      linarith [habs.2]

/-- C2 (witness): evaluating the amended claim at a concrete input. -/
theorem kelly_size_zero_and_capped_witness :
    KellyCriterion.default.position_size_usdc 100 (3/5) (7/10) = 0 :=
  (kelly_size_zero_and_capped KellyCriterion.default
    (by norm_num [KellyCriterion.default])
    (by norm_num [KellyCriterion.default])
    (3/5) (7/10) 100).1 (by norm_num)

/-- C6 (counterexample): at `market = 0.40`, `fair = 0.50` the
Decimal-API `LmsrModel::detect_edge` returns 25 (a percentage), not
the plain ratio 0.25, and disagrees with the f64-API
`LmsrPricer::detect_edge`. -/
theorem detect_edge_apis_differ :
    LmsrModel.detect_edge (2/5) (1/2) ≠
      |(1/2 : ℚ) - 2/5| / (2/5) ∧
    LmsrModel.detect_edge (2/5) (1/2) ≠
      LmsrPricer.detect_edge (2/5) (1/2) := by
  constructor
  · norm_num [LmsrModel.detect_edge, abs_of_nonneg]
  · norm_num [LmsrModel.detect_edge, LmsrPricer.detect_edge,
      abs_of_nonneg]

/-- C6 (amended): for every market price > 0 and fair price, the
f64-API `LmsrPricer::detect_edge` returns the plain relative
dislocation `|fair − market| / market`, while the Decimal-API
`LmsrModel::detect_edge` returns the same quantity expressed as a
percentage, i.e. 100 times the ratio. -/
theorem detect_edge_ratio_and_percent (market fair : ℚ)
    (hm : 0 < market) :
    LmsrPricer.detect_edge market fair = |fair - market| / market ∧
    LmsrModel.detect_edge market fair =
      100 * (|fair - market| / market) := by
  constructor
  · unfold LmsrPricer.detect_edge
    rw [abs_div, abs_of_pos hm]
  · unfold LmsrModel.detect_edge
    rw [abs_mul, abs_div, abs_of_pos hm]
    norm_num
    ring

/-- C6 (witness): evaluating the amended claim at a concrete input. -/
theorem detect_edge_ratio_and_percent_witness :
    LmsrPricer.detect_edge (2/5) (1/2) = |(1/2 : ℚ) - 2/5| / (2/5) ∧
    LmsrModel.detect_edge (2/5) (1/2) =
      100 * (|(1/2 : ℚ) - 2/5| / (2/5)) :=
  detect_edge_ratio_and_percent (2/5) (1/2) (by norm_num)

/-- C7: for every price `p ∈ (0,1)` and positive size, the taker fee
equals `rate · p^n · (1−p)^n · size`, is nonnegative, is bounded by
`rate · 2^(−2n) · size`, and attains that bound (its maximum) at
`p = 1/2`; moreover both default constructors carry
`rate = 0.0025`, `n = 2`. -/
theorem taker_fee_formula_bound_argmax (c : FeeCalculator)
    (hr : 0 ≤ c.feeRate) (p size : ℚ)
    (hp0 : 0 < p) (hp1 : p < 1) (hs : 0 < size) :
    c.taker_fee p size =
      c.feeRate * (p ^ c.exponent * (1 - p) ^ c.exponent) * size ∧
    0 ≤ c.taker_fee p size ∧
    c.taker_fee p size ≤
      c.feeRate * (1/2) ^ (2 * c.exponent) * size ∧
    c.taker_fee p size ≤ c.taker_fee (1/2) size ∧
    c.taker_fee (1/2) size =
      c.feeRate * (1/2) ^ (2 * c.exponent) * size ∧
    FeeCalculator.new_maker.feeRate = 1/400 ∧
    FeeCalculator.new_maker.exponent = 2 ∧
    FeeCalculator.standard.feeRate = 1/400 ∧
    FeeCalculator.standard.exponent = 2 := by
  have hno : ¬(p ≤ 0 ∨ 1 ≤ p) := by push_neg; exact ⟨hp0, hp1⟩
  have hform : c.taker_fee p size =
      c.feeRate * (p ^ c.exponent * (1 - p) ^ c.exponent) * size := by
    unfold FeeCalculator.taker_fee
    rw [if_neg hno]
  have hhalf : c.taker_fee (1/2) size =
      c.feeRate * (1/2) ^ (2 * c.exponent) * size := by
    unfold FeeCalculator.taker_fee
    rw [if_neg (by norm_num)]
    have h2 : (1 - (1:ℚ)/2) = 1/2 := by norm_num
    rw [h2, ← pow_add, two_mul]
  have hfac0 : (0:ℚ) ≤ p ^ c.exponent * (1 - p) ^ c.exponent := by
    have h1p : (0:ℚ) ≤ 1 - p := by linarith
    positivity
  have hfacle : p ^ c.exponent * (1 - p) ^ c.exponent ≤
      (1/2) ^ (2 * c.exponent) := by
    rw [← mul_pow, pow_mul]
    have h14 : p * (1 - p) ≤ 1/4 := by nlinarith [sq_nonneg (p - 1/2)]
    have h0 : (0:ℚ) ≤ p * (1 - p) := by nlinarith
    calc (p * (1 - p)) ^ c.exponent ≤ (1/4) ^ c.exponent :=
          pow_le_pow_left₀ h0 h14 c.exponent
      _ = ((1/2:ℚ) ^ 2) ^ c.exponent := by norm_num
  refine ⟨hform, ?_, ?_, ?_, hhalf, rfl, rfl, rfl, rfl⟩
  · rw [hform]; positivity
  · rw [hform]
    have := mul_le_mul_of_nonneg_left hfacle hr
    exact mul_le_mul_of_nonneg_right this hs.le
  · rw [hform, hhalf]
    have := mul_le_mul_of_nonneg_left hfacle hr
    exact mul_le_mul_of_nonneg_right this hs.le

/-- C7 (witness): evaluating the taker-fee bounds at a concrete input. -/
theorem taker_fee_formula_bound_argmax_witness :
    0 ≤ FeeCalculator.standard.taker_fee (1/3) 2 ∧
    FeeCalculator.standard.taker_fee (1/3) 2 ≤
      FeeCalculator.standard.feeRate *
        (1/2) ^ (2 * FeeCalculator.standard.exponent) * 2 := by
  have h := taker_fee_formula_bound_argmax FeeCalculator.standard
    (by norm_num [FeeCalculator.standard]) (1/3) 2
    (by norm_num) (by norm_num) (by norm_num)
  exact ⟨h.2.1, h.2.2.1⟩

/-- Embeds `RiskManager` (src/usecases/risk_manager.rs lines 15-38): limits
from `RiskConfig` plus the mutable risk state. -/
structure RiskState where
  maxDailyLossFraction : ℚ
  maxPositionSize : ℚ
  maxTotalExposure : ℚ
  minBankroll : ℚ
  circuitBreakerLosses : ℕ
  cooldownSeconds : ℕ
  dailyLoss : ℚ
  consecutiveLosses : ℕ
  breakerActive : Bool
  breakerTime : Option ℕ
  totalExposure : ℚ

/-- Embeds `RiskManager::can_trade` (risk_manager.rs 59-73), with the wall
clock passed explicitly in milliseconds. -/
def canTrade (rm : RiskState) (now : ℕ) : Bool :=
  if rm.breakerActive then
    match rm.breakerTime with
    | some t =>
        if (now - t) / 1000 < rm.cooldownSeconds then false else true
    | none => true
  else true

/-- Embeds `RiskManager::can_open_position` (risk_manager.rs 76-113). -/
def canOpenPosition (rm : RiskState) (size bankroll : ℚ) (now : ℕ) :
    Bool :=
  if ¬ canTrade rm now then false
  else if bankroll < rm.minBankroll then false
  else if size > rm.maxPositionSize then false
  else if rm.totalExposure + size > rm.maxTotalExposure then false
  else if rm.dailyLoss ≥ bankroll * rm.maxDailyLossFraction then false
  else true

/-- Embeds `RiskManager::record_trade` (risk_manager.rs 116-127) together
with `trigger_circuit_breaker` (157-171); the trigger's
`SystemTime::now()` is the explicit `now` argument. -/
def recordTrade (rm : RiskState) (pnl : ℚ) (now : ℕ) : RiskState :=
  if pnl < 0 then
    if rm.consecutiveLosses + 1 ≥ rm.circuitBreakerLosses then
      { rm with
          dailyLoss := rm.dailyLoss + |pnl|
          consecutiveLosses := rm.consecutiveLosses + 1
          breakerActive := true
          breakerTime := some now }
    else
      { rm with
          dailyLoss := rm.dailyLoss + |pnl|
          consecutiveLosses := rm.consecutiveLosses + 1 }
  else { rm with consecutiveLosses := 0 }

/-- A sequence of `record_trade` calls, each with its wall-clock time. -/
def runTrades (rm : RiskState) : List (ℚ × ℕ) → RiskState
  | [] => rm
  | e :: rest => runTrades (recordTrade rm e.1 e.2) rest

/-- One step of the consecutive-loss counter. -/
def lossStep (c : ℕ) (pnl : ℚ) : ℕ := if pnl < 0 then c + 1 else 0

/-- The consecutive-loss counter after a pnl sequence, starting at `c`. -/
def trailFrom (c : ℕ) (l : List ℚ) : ℕ := l.foldl lossStep c

/-- Spec-side predicate (from the claim's words): at some point while
processing the pnl sequence the consecutive-loss counter, starting
from zero, reaches the threshold — i.e. some prefix ends in at least
`th` uninterrupted losses. -/
def reachesThreshold (th : ℕ) (l : List ℚ) : Prop :=
  ∃ n, 1 ≤ n ∧ n ≤ l.length ∧ th ≤ trailFrom 0 (l.take n)

theorem recordTrade_breaker_mono (rm : RiskState) (pnl : ℚ) (now : ℕ)
    (h : rm.breakerActive = true) :
    (recordTrade rm pnl now).breakerActive = true := by
  unfold recordTrade
  split_ifs <;> simpa

theorem runTrades_breaker_mono (evts : List (ℚ × ℕ)) (rm : RiskState)
    (h : rm.breakerActive = true) :
    (runTrades rm evts).breakerActive = true := by
  induction evts generalizing rm with
  | nil => exact h
  | cons e rest ih =>
      exact ih _ (recordTrade_breaker_mono rm e.1 e.2 h)

theorem runTrades_breaker_iff (evts : List (ℚ × ℕ)) (rm : RiskState)
    (hth : 1 ≤ rm.circuitBreakerLosses) :
    (runTrades rm evts).breakerActive = true ↔
      rm.breakerActive = true ∨
        ∃ n, 1 ≤ n ∧ n ≤ evts.length ∧
          rm.circuitBreakerLosses ≤
            trailFrom rm.consecutiveLosses
              ((evts.map Prod.fst).take n) := by
  induction evts generalizing rm with
  | nil =>
      simp only [runTrades, List.length_nil, List.map_nil]
      constructor
      · intro h; exact Or.inl h
      · rintro (h | ⟨n, h1, h2, _⟩)
        · exact h
        · omega
  | cons e rest ih =>
      simp only [runTrades]
      by_cases hpnl : e.1 < 0
      · by_cases htrip : rm.consecutiveLosses + 1 ≥
            rm.circuitBreakerLosses
        · have hact : (recordTrade rm e.1 e.2).breakerActive = true := by
            unfold recordTrade
            rw [if_pos hpnl, if_pos htrip]
          constructor
          · intro _
            refine Or.inr ⟨1, le_refl 1, by simp, ?_⟩
            simp only [List.map_cons, List.take_succ_cons,
              List.take_zero, trailFrom, List.foldl_cons,
              List.foldl_nil, lossStep, if_pos hpnl]
            exact htrip
          · intro _
            exact runTrades_breaker_mono rest _ hact
        · have hrec : recordTrade rm e.1 e.2 =
              { rm with
                  dailyLoss := rm.dailyLoss + |e.1|
                  consecutiveLosses := rm.consecutiveLosses + 1 } := by
            unfold recordTrade
            rw [if_pos hpnl, if_neg htrip]
          rw [hrec, ih _ (by simpa using hth)]
          constructor
          · rintro (h | ⟨m, hm1, hm2, hm3⟩)
            · exact Or.inl h
            · refine Or.inr ⟨m + 1, by omega, by simp; omega, ?_⟩
              simpa [List.map_cons, List.take_succ_cons, trailFrom,
                lossStep, if_pos hpnl] using hm3
          · rintro (h | ⟨n, hn1, hn2, hn3⟩)
            · exact Or.inl h
            · match n, hn1 with
              | 1, _ =>
                  exfalso
                  simp only [List.map_cons, List.take_succ_cons,
                    List.take_zero, trailFrom, List.foldl_cons,
                    List.foldl_nil, lossStep, if_pos hpnl] at hn3
                  omega
              | (m+2), _ =>
                  refine Or.inr ⟨m + 1, by omega, by simp at hn2 ⊢; omega, ?_⟩
                  simpa [List.map_cons, List.take_succ_cons, trailFrom,
                    lossStep, if_pos hpnl] using hn3
      · have hrec : recordTrade rm e.1 e.2 =
            { rm with consecutiveLosses := 0 } := by
          unfold recordTrade
          rw [if_neg hpnl]
        rw [hrec, ih _ (by simpa using hth)]
        constructor
        · rintro (h | ⟨m, hm1, hm2, hm3⟩)
          · exact Or.inl h
          · refine Or.inr ⟨m + 1, by omega, by simp; omega, ?_⟩
            simpa [List.map_cons, List.take_succ_cons, trailFrom,
              lossStep, if_neg hpnl] using hm3
        · rintro (h | ⟨n, hn1, hn2, hn3⟩)
          · exact Or.inl h
          · match n, hn1 with
            | 1, _ =>
                exfalso
                simp only [List.map_cons, List.take_succ_cons,
                  List.take_zero, trailFrom, List.foldl_cons,
                  List.foldl_nil, lossStep, if_neg hpnl] at hn3
                omega
            | (m+2), _ =>
                refine Or.inr ⟨m + 1, by omega, by simp at hn2 ⊢; omega, ?_⟩
                simpa [List.map_cons, List.take_succ_cons, trailFrom,
                  lossStep, if_neg hpnl] using hn3

/-- Embeds `RiskManager::new` (risk_manager.rs 40-56): fresh state from config. -/
def RiskManager.new (maxDailyLossFraction maxPositionSize
    maxTotalExposure minBankroll : ℚ)
    (circuitBreakerLosses cooldownSeconds : ℕ) : RiskState :=
  { maxDailyLossFraction := maxDailyLossFraction
    maxPositionSize := maxPositionSize
    maxTotalExposure := maxTotalExposure
    minBankroll := minBankroll
    circuitBreakerLosses := circuitBreakerLosses
    cooldownSeconds := cooldownSeconds
    dailyLoss := 0
    consecutiveLosses := 0
    breakerActive := false
    breakerTime := none
    totalExposure := 0 }

/-- Modelled from the spec: `expected_worst_case_loss` is named by the
spec's `can_open` formula but is implemented nowhere under src/; for a
binary-outcome position the worst case is losing the full stake, so it
is modelled as the identity on the position size. -/
def expectedWorstCaseLoss (size : ℚ) : ℚ := size

/-- The spec's wording of the `can_open` gate (§4.5), as a second,
spec-side definition to compare with `canOpenPosition` from the code. -/
def specCanOpen (rm : RiskState) (size bankroll : ℚ) (now : ℕ) : Prop :=
  canTrade rm now = true ∧
  rm.minBankroll ≤ bankroll ∧
  size ≤ rm.maxPositionSize ∧
  rm.totalExposure + size ≤ rm.maxTotalExposure ∧
  rm.dailyLoss + max 0 (expectedWorstCaseLoss size) ≤
    bankroll * rm.maxDailyLossFraction

/-- C3 (counterexample): the claimed iff fails on the code in both
directions. With limits (mdlf 0.02, max position 100, max exposure
500, min bankroll 50): at daily_loss 19, size 50, bankroll 1000 the
code opens (19 < 20) though the spec conjunction demands
19 + 50 ≤ 20; at daily_loss 20, size 0, bankroll 1000 the spec
conjunction holds (20 + 0 ≤ 20) but the code refuses (20 ≥ 20). -/
theorem canOpen_claim_fails :
    (canOpenPosition
        { RiskManager.new (1/50) 100 500 50 3 300 with dailyLoss := 19 }
        50 1000 0 = true ∧
      ¬ specCanOpen
        { RiskManager.new (1/50) 100 500 50 3 300 with dailyLoss := 19 }
        50 1000 0) ∧
    (canOpenPosition
        { RiskManager.new (1/50) 100 500 50 3 300 with dailyLoss := 20 }
        0 1000 0 = false ∧
      specCanOpen
        { RiskManager.new (1/50) 100 500 50 3 300 with dailyLoss := 20 }
        0 1000 0) := by
  refine ⟨⟨?_, ?_⟩, ?_, ?_⟩ <;>
    norm_num [canOpenPosition, canTrade, specCanOpen,
      expectedWorstCaseLoss, RiskManager.new]

/-- C3 (amended): `can_open_position(size, bankroll)` returns true iff
`can_trade()` ∧ `bankroll ≥ min_bankroll` ∧ `size ≤ max_position_size`
∧ `total_exposure + size ≤ max_total_exposure` ∧
`daily_loss < bankroll · max_daily_loss_fraction` — the daily-loss gate
is strict and carries no worst-case-loss term for the new position. -/
theorem canOpenPosition_iff (rm : RiskState) (size bankroll : ℚ)
    (now : ℕ) :
    canOpenPosition rm size bankroll now = true ↔
      (canTrade rm now = true ∧
       rm.minBankroll ≤ bankroll ∧
       size ≤ rm.maxPositionSize ∧
       rm.totalExposure + size ≤ rm.maxTotalExposure ∧
       rm.dailyLoss < bankroll * rm.maxDailyLossFraction) := by
  constructor
  · intro h
    unfold canOpenPosition at h
    split_ifs at h with h1 h2 h3 h4 h5
    exact ⟨h1, not_lt.mp h2, not_lt.mp h3, not_lt.mp h4,
      not_le.mp h5⟩
  · rintro ⟨c1, c2, c3, c4, c5⟩
    unfold canOpenPosition
    rw [if_neg (not_not_intro c1), if_neg (not_lt.mpr c2),
      if_neg (not_lt.mpr c3), if_neg (not_lt.mpr c4),
      if_neg (not_le.mpr c5)]

/-- C4: from a fresh (armed) risk state, a losing trade increments the
consecutive-loss counter and adds `|pnl|` to the daily loss, a
non-losing trade resets the counter (daily loss unchanged), the
breaker is active after a trade sequence exactly when the counter
reached the configured threshold at some point (so an intervening win
prevents the trip), and while tripped `can_trade()` is false until the
cooldown has elapsed since the trip time. -/
theorem risk_breaker_state_machine (rm : RiskState) (pnl : ℚ)
    (now : ℕ) (rm0 : RiskState) (evts : List (ℚ × ℕ)) (T now2 : ℕ) :
    (pnl < 0 →
      (recordTrade rm pnl now).consecutiveLosses =
        rm.consecutiveLosses + 1 ∧
      (recordTrade rm pnl now).dailyLoss = rm.dailyLoss + |pnl|) ∧
    (0 ≤ pnl →
      (recordTrade rm pnl now).consecutiveLosses = 0 ∧
      (recordTrade rm pnl now).dailyLoss = rm.dailyLoss) ∧
    (rm0.breakerActive = false → rm0.consecutiveLosses = 0 →
      1 ≤ rm0.circuitBreakerLosses →
      ((runTrades rm0 evts).breakerActive = true ↔
        reachesThreshold rm0.circuitBreakerLosses
          (evts.map Prod.fst))) ∧
    (rm.breakerActive = true → rm.breakerTime = some T → T ≤ now2 →
      (canTrade rm now2 = true ↔
        rm.cooldownSeconds ≤ (now2 - T) / 1000)) := by
  refine ⟨?_, ?_, ?_, ?_⟩
  · intro hneg
    unfold recordTrade
    rw [if_pos hneg]
    split_ifs <;> exact ⟨rfl, rfl⟩
  · intro hpos
    unfold recordTrade
    rw [if_neg (not_lt.mpr hpos)]
    exact ⟨rfl, rfl⟩
  · intro hact hcl hth
    rw [runTrades_breaker_iff evts rm0 hth, hact]
    simp only [Bool.false_eq_true, false_or]
    unfold reachesThreshold
    rw [hcl]
    simp [List.length_map]
  · intro hact htime hT
    unfold canTrade
    rw [hact, htime]
    simp only [if_true]
    split_ifs with hcool
    · simp only [Bool.false_eq_true, false_iff]
      omega
    · simp only [true_iff]
      omega

/-- C4 (witness): three consecutive losses at threshold 3 trip the
breaker of the fresh test-config state, and the tripped state refuses
trading 100 s after the trip with a 300 s cooldown. -/
theorem risk_breaker_state_machine_witness :
    (runTrades (RiskManager.new (1/50) 100 500 50 3 300)
      [((-10 : ℚ), 5), (-10, 6), (-10, 7)]).breakerActive = true ∧
    canTrade
      { RiskManager.new (1/50) 100 500 50 3 300 with
          breakerActive := true, breakerTime := some 1000 }
      101000 = false := by
  have h := risk_breaker_state_machine
    { RiskManager.new (1/50) 100 500 50 3 300 with
        breakerActive := true, breakerTime := some 1000 }
    (-10) 0 (RiskManager.new (1/50) 100 500 50 3 300)
    [((-10 : ℚ), 5), (-10, 6), (-10, 7)] 1000 101000
  constructor
  · refine (h.2.2.1 rfl rfl (by norm_num [RiskManager.new])).mpr ?_
    refine ⟨3, by norm_num, by norm_num, ?_⟩
    norm_num [RiskManager.new, trailFrom, lossStep]
  · have hiff := h.2.2.2 rfl rfl (by norm_num)
    rw [← Bool.not_eq_true]
    intro hcontra
    have := hiff.mp hcontra
    norm_num [RiskManager.new] at this

/-- Embeds `OrderManager` rate-limiter state (src/usecases/order_manager.rs
22-48); `Instant`s are modelled as natural-number milliseconds. -/
structure OrderManagerState where
  orderTimestamps : List ℕ
  maxOrdersPerMinute : ℕ
  minIntervalMs : ℕ
  lastOrderTime : Option ℕ

/-- Embeds `OrderManager::new` (order_manager.rs 39-48), with the execution
handle abstracted away. -/
def OrderManager.new (maxOrdersPerMinute minIntervalMs : ℕ) :
    OrderManagerState :=
  { orderTimestamps := []
    maxOrdersPerMinute := maxOrdersPerMinute
    minIntervalMs := minIntervalMs
    lastOrderTime := none }

/-- The `retain` step of `check_rate_limit` (order_manager.rs
137-145): keep timestamps `t` with
`now.duration_since(t).as_secs() < 60`. -/
def pruneTimestamps (now : ℕ) (ts : List ℕ) : List ℕ :=
  ts.filter (fun t => decide ((now - t) / 1000 < 60))

/-- The minimum-interval guard of `place_maker_order` (order_manager.rs
69-79): `last.elapsed().as_millis() < min_interval_ms`. -/
def intervalTooSoon (lastOrderTime : Option ℕ)
    (now minIntervalMs : ℕ) : Bool :=
  match lastOrderTime with
  | some last => decide (now - last < minIntervalMs)
  | none => false

/-- Embeds `OrderManager::place_maker_order` (order_manager.rs 55-120), with
the wall clock and the execution port's accept/reject decision passed
explicitly. `none` models the two `Ok(None)` skip paths; `some b`
models `Ok(Some(result))` with `result.accepted = b`; `record_order`
(148-152) runs only on acceptance. -/
def placeMakerOrder (s : OrderManagerState) (now : ℕ)
    (accepted : Bool) : Option Bool × OrderManagerState :=
  if (pruneTimestamps now s.orderTimestamps).length ≥
      s.maxOrdersPerMinute then
    (none, { s with orderTimestamps := pruneTimestamps now s.orderTimestamps })
  else if intervalTooSoon s.lastOrderTime now s.minIntervalMs then
    (none, { s with orderTimestamps := pruneTimestamps now s.orderTimestamps })
  else if accepted then
    (some true,
      { s with
          orderTimestamps := pruneTimestamps now s.orderTimestamps ++ [now]
          lastOrderTime := some now })
  else
    (some false,
      { s with orderTimestamps := pruneTimestamps now s.orderTimestamps })

/-- A sequence of `place_maker_order` calls: final state plus the
per-call `(time, outcome)` results in order. -/
def runOrders (s : OrderManagerState) :
    List (ℕ × Bool) → OrderManagerState × List (ℕ × Option Bool)
  | [] => (s, [])
  | e :: rest =>
      let r := placeMakerOrder s e.1 e.2
      let k := runOrders r.2 rest
      (k.1, (e.1, r.1) :: k.2)

/-- Times of the accepted placements among the results. -/
def placedTimes (results : List (ℕ × Option Bool)) : List ℕ :=
  (results.filter (fun r => decide (r.2 = some true))).map Prod.fst

/-- Number of accepted placements whose time lies in the rolling
60-second window `(w, w + 60000]`. -/
def windowCount (results : List (ℕ × Option Bool)) (w : ℕ) : ℕ :=
  ((placedTimes results).filter
    (fun t => decide (w < t ∧ t ≤ w + 60000))).length

/-- Time of the last event of a trace (0 for the empty trace). -/
def lastT : List (ℕ × Bool) → ℕ
  | [] => 0
  | [e] => e.1
  | _ :: rest => lastT rest

theorem lastT_cons_ne (e : ℕ × Bool) (rest : List (ℕ × Bool))
    (h : rest ≠ []) : lastT (e :: rest) = lastT rest := by
  cases rest with
  | nil => exact absurd rfl h
  | cons f t => rfl

theorem lastT_mem (evts : List (ℕ × Bool)) (h : evts ≠ []) :
    ∃ x ∈ evts, lastT evts = x.1 := by
  induction evts with
  | nil => exact absurd rfl h
  | cons e rest ih =>
      cases rest with
      | nil => exact ⟨e, by simp, rfl⟩
      | cons f t =>
          obtain ⟨x, hx, hlast⟩ := ih (by simp)
          exact ⟨x, by simp [hx], by rw [lastT_cons_ne e _ (by simp), hlast]⟩

theorem prune_prune {t T : ℕ} (h : t ≤ T) (xs : List ℕ) :
    pruneTimestamps T (pruneTimestamps t xs) = pruneTimestamps T xs := by
  unfold pruneTimestamps
  rw [List.filter_filter]
  apply List.filter_congr
  intro x _
  by_cases hT : (T - x) / 1000 < 60
  · have ht : (t - x) / 1000 < 60 :=
      lt_of_le_of_lt
        (Nat.div_le_div_right (Nat.sub_le_sub_right h x)) hT
    simp [hT, ht]
  · simp [hT]

theorem prune_append (T : ℕ) (xs ys : List ℕ) :
    pruneTimestamps T (xs ++ ys) =
      pruneTimestamps T xs ++ pruneTimestamps T ys := by
  simp [pruneTimestamps]

theorem placeMakerOrder_max (s : OrderManagerState) (now : ℕ)
    (acc : Bool) :
    ((placeMakerOrder s now acc).2).maxOrdersPerMinute =
      s.maxOrdersPerMinute := by
  unfold placeMakerOrder
  split_ifs <;> rfl

theorem runOrders_max (evts : List (ℕ × Bool)) (s : OrderManagerState) :
    ((runOrders s evts).1).maxOrdersPerMinute = s.maxOrdersPerMinute := by
  induction evts generalizing s with
  | nil => rfl
  | cons e rest ih =>
      simp only [runOrders]
      rw [ih, placeMakerOrder_max]

theorem runOrders_append (s : OrderManagerState)
    (l1 l2 : List (ℕ × Bool)) :
    runOrders s (l1 ++ l2) =
      ((runOrders (runOrders s l1).1 l2).1,
        (runOrders s l1).2 ++ (runOrders (runOrders s l1).1 l2).2) := by
  induction l1 generalizing s with
  | nil => simp [runOrders]
  | cons e rest ih =>
      simp only [List.cons_append, runOrders, List.append_eq]
      rw [ih]

/-- Invariant: after a nonempty monotone trace, the stored timestamps
are exactly the accepted placement times (appended to the initial
timestamps) pruned at the last event time. -/
theorem runOrders_timestamps (evts : List (ℕ × Bool))
    (s : OrderManagerState)
    (hmono : evts.Pairwise (fun a b => a.1 ≤ b.1)) (hne : evts ≠ []) :
    ((runOrders s evts).1).orderTimestamps =
      pruneTimestamps (lastT evts)
        (s.orderTimestamps ++ placedTimes (runOrders s evts).2) := by
  induction evts generalizing s with
  | nil => exact absurd rfl hne
  | cons e rest ih =>
      rcases eq_or_ne rest [] with hrest | hrest
      · subst hrest
        show ((placeMakerOrder s e.1 e.2).2).orderTimestamps =
          pruneTimestamps e.1
            (s.orderTimestamps ++
              placedTimes [(e.1, (placeMakerOrder s e.1 e.2).1)])
        unfold placeMakerOrder
        split_ifs with h1 h2 h3
        · simp [placedTimes]
        · simp [placedTimes]
        · simp only [placedTimes, List.filter_cons, decide_eq_true_eq,
            if_pos rfl]
          rw [prune_append]
          simp [pruneTimestamps]
        · simp [placedTimes]
      · have hmrest : rest.Pairwise (fun a b => a.1 ≤ b.1) :=
          (List.pairwise_cons.mp hmono).2
        have hle : ∀ x ∈ rest, e.1 ≤ x.1 :=
          (List.pairwise_cons.mp hmono).1
        have hlastle : e.1 ≤ lastT rest := by
          obtain ⟨x, hx, hlast⟩ := lastT_mem rest hrest
          rw [hlast]
          exact hle x hx
        rw [lastT_cons_ne e rest hrest]
        show ((runOrders (placeMakerOrder s e.1 e.2).2 rest).1).orderTimestamps =
          pruneTimestamps (lastT rest)
            (s.orderTimestamps ++
              placedTimes ((e.1, (placeMakerOrder s e.1 e.2).1) ::
                (runOrders (placeMakerOrder s e.1 e.2).2 rest).2))
        rw [ih _ hmrest hrest]
        by_cases hplaced : (placeMakerOrder s e.1 e.2).1 = some true
        · have hts : ((placeMakerOrder s e.1 e.2).2).orderTimestamps =
              pruneTimestamps e.1 (s.orderTimestamps ++ [e.1]) := by
            unfold placeMakerOrder at hplaced ⊢
            split_ifs at hplaced ⊢ with h1 h2 h3
            · rw [prune_append]
              simp [pruneTimestamps]
            · exact absurd hplaced (by simp)
          have hplaced' :
              placedTimes ((e.1, (placeMakerOrder s e.1 e.2).1) ::
                (runOrders (placeMakerOrder s e.1 e.2).2 rest).2) =
              e.1 :: placedTimes
                (runOrders (placeMakerOrder s e.1 e.2).2 rest).2 := by
            simp [placedTimes, hplaced]
          have hassoc : s.orderTimestamps ++
              e.1 :: placedTimes
                (runOrders (placeMakerOrder s e.1 e.2).2 rest).2 =
              (s.orderTimestamps ++ [e.1]) ++ placedTimes
                (runOrders (placeMakerOrder s e.1 e.2).2 rest).2 := by
            simp
          rw [hts, hplaced', hassoc]
          simp only [prune_append, prune_prune hlastle,
            List.append_assoc]
        · have hts : ((placeMakerOrder s e.1 e.2).2).orderTimestamps =
              pruneTimestamps e.1 s.orderTimestamps := by
            unfold placeMakerOrder at hplaced ⊢
            split_ifs at hplaced ⊢ with h1 h2 h3
            · rfl
            · rfl
            · exact absurd rfl hplaced
            · rfl
          have hfilter : placedTimes ((e.1, (placeMakerOrder s e.1 e.2).1) ::
              (runOrders (placeMakerOrder s e.1 e.2).2 rest).2) =
              placedTimes (runOrders (placeMakerOrder s e.1 e.2).2 rest).2 := by
            simp [placedTimes, List.filter_cons, hplaced]
          rw [hts, hfilter]
          simp only [prune_append, prune_prune hlastle]

/-- The rate check: an outcome other than a skip means the pruned
window count was strictly below the maximum. -/
theorem placeMakerOrder_rate (s : OrderManagerState) (now : ℕ)
    (acc : Bool) (b : Bool)
    (h : (placeMakerOrder s now acc).1 = some b) :
    (pruneTimestamps now s.orderTimestamps).length <
      s.maxOrdersPerMinute := by
  by_cases hrate : (pruneTimestamps now s.orderTimestamps).length ≥
      s.maxOrdersPerMinute
  · exfalso
    unfold placeMakerOrder at h
    rw [if_pos hrate] at h
    exact absurd h (by simp)
  · exact not_le.mp hrate

theorem windowCount_append (xs : List (ℕ × Option Bool)) (t : ℕ)
    (out : Option Bool) (w : ℕ) :
    windowCount (xs ++ [(t, out)]) w =
      windowCount xs w +
        (if out = some true ∧ w < t ∧ t ≤ w + 60000 then 1 else 0) := by
  unfold windowCount placedTimes
  rw [List.filter_append, List.map_append, List.filter_append,
    List.length_append]
  congr 1
  by_cases hout : out = some true
  · subst hout
    by_cases hw : w < t ∧ t ≤ w + 60000
    · simp [hw]
    · simp [hw]
  · simp [List.filter_cons, hout]

theorem windowCount_le_prune (results : List (ℕ × Option Bool))
    (T w : ℕ) (hT : T ≤ w + 60000) :
    windowCount results w ≤
      (pruneTimestamps T (placedTimes results)).length := by
  unfold windowCount pruneTimestamps
  have heq : List.filter (fun t => decide (w < t ∧ t ≤ w + 60000))
        (placedTimes results) =
      List.filter (fun t => decide (w < t ∧ t ≤ w + 60000))
        (List.filter (fun t => decide ((T - t) / 1000 < 60))
          (placedTimes results)) := by
    rw [List.filter_filter]
    apply List.filter_congr
    intro x _
    by_cases hwin : w < x ∧ x ≤ w + 60000
    · have hpr : (T - x) / 1000 < 60 := by
        rw [Nat.div_lt_iff_lt_mul (by norm_num)]
        omega
      simp [hwin, hpr]
    · simp [hwin]
  rw [heq]
  exact List.length_filter_le _ _

theorem runOrders_window_le (N minInt : ℕ) (evts : List (ℕ × Bool))
    (hmono : evts.Pairwise (fun a b => a.1 ≤ b.1)) (w : ℕ) :
    windowCount (runOrders (OrderManager.new N minInt) evts).2 w ≤ N := by
  induction evts using List.reverseRecOn with
  | nil => simp [runOrders, windowCount, placedTimes]
  | append_singleton l1 e ih =>
      have hsplit := List.pairwise_append.mp hmono
      have hm1 : l1.Pairwise (fun a b => a.1 ≤ b.1) := hsplit.1
      have hle : ∀ x ∈ l1, x.1 ≤ e.1 :=
        fun x hx => hsplit.2.2 x hx e (by simp)
      rw [runOrders_append]
      show windowCount
        ((runOrders (OrderManager.new N minInt) l1).2 ++
          [(e.1, (placeMakerOrder
            (runOrders (OrderManager.new N minInt) l1).1 e.1 e.2).1)]) w ≤ N
      rw [windowCount_append]
      split_ifs with hcase
      · obtain ⟨hout, hw1, hw2⟩ := hcase
        have hN : ((runOrders (OrderManager.new N minInt) l1).1).maxOrdersPerMinute
            = N := runOrders_max l1 _
        have hbound := placeMakerOrder_rate _ e.1 e.2 true hout
        rw [hN] at hbound
        rcases eq_or_ne l1 [] with hl1 | hl1
        · subst hl1
          simp only [runOrders, windowCount, placedTimes,
            List.filter_nil, List.map_nil, List.length_nil]
          simp only [runOrders, OrderManager.new] at hbound
          simp [pruneTimestamps] at hbound
          omega
        · have hts := runOrders_timestamps l1
            (OrderManager.new N minInt) hm1 hl1
          rw [show (OrderManager.new N minInt).orderTimestamps = []
            from rfl, List.nil_append] at hts
          have hlastle : lastT l1 ≤ e.1 := by
            obtain ⟨x, hx, hlast⟩ := lastT_mem l1 hl1
            rw [hlast]
            exact hle x hx
          rw [hts, prune_prune hlastle] at hbound
          have hcount := windowCount_le_prune
            (runOrders (OrderManager.new N minInt) l1).2 e.1 w hw2
          omega
      · have := ih hm1
        omega

/-- C5: starting from a fresh order manager, over any sequence of
`place_maker_order` calls with nondecreasing wall-clock times, at most
`max_orders_per_minute` orders are accepted within any rolling
60-second window; a call whose pruned timestamp count has reached the
maximum is skipped (`Ok(None)`); and any call that does not end in an
accepted placement — skip or rejection — records no timestamp, so
rejections never consume rate budget. -/
theorem order_rate_limit (evts : List (ℕ × Bool)) (N minInt : ℕ)
    (hmono : evts.Pairwise (fun a b => a.1 ≤ b.1)) (w : ℕ)
    (s : OrderManagerState) (now : ℕ) (acc : Bool) :
    windowCount (runOrders (OrderManager.new N minInt) evts).2 w ≤ N ∧
    ((pruneTimestamps now s.orderTimestamps).length ≥
        s.maxOrdersPerMinute →
      (placeMakerOrder s now acc).1 = none) ∧
    ((placeMakerOrder s now acc).1 ≠ some true →
      ((placeMakerOrder s now acc).2).orderTimestamps =
        pruneTimestamps now s.orderTimestamps) := by
  refine ⟨runOrders_window_le N minInt evts hmono w, ?_, ?_⟩
  · intro hfull
    unfold placeMakerOrder
    rw [if_pos hfull]
  · intro hnp
    unfold placeMakerOrder at hnp ⊢
    split_ifs at hnp ⊢ with h1 h2 h3
    · rfl
    · rfl
    · exact absurd rfl hnp
    · rfl

/-- C5 (witness): with `N_max = 2` and no interval limit, three
accepted signals at t = 0 ms, 1 ms, 2 ms yield at most two placements
in the window `(0, 60000]`, and a rejected call at a fresh state
records no timestamp. -/
theorem order_rate_limit_witness :
    windowCount (runOrders (OrderManager.new 2 0)
      [(0, true), (1, true), (2, true)]).2 0 ≤ 2 ∧
    ((placeMakerOrder (OrderManager.new 2 0) 5 false).2).orderTimestamps
      = pruneTimestamps 5 (OrderManager.new 2 0).orderTimestamps := by
  have h := order_rate_limit [(0, true), (1, true), (2, true)] 2 0
    (by decide) 0 (OrderManager.new 2 0) 5 false
  refine ⟨h.1, h.2.2 ?_⟩
  decide

/-- Embeds `OrderBookSnapshot` (src/ports/market_feed.rs 34-45), with the
token id elided and the string price levels already parsed. -/
structure Snapshot where
  bids : List (ℚ × ℚ)
  asks : List (ℚ × ℚ)
  sequence : ℕ
  timestampMs : ℕ
deriving DecidableEq

/-- Per-token `TokenState` (src/adapters/feeds/polymarket_ws.rs
49-56); the broadcast sender handle is elided. -/
structure TokenState where
  lastMid : Option ℚ
  lastSnapshot : Option Snapshot
deriving DecidableEq

/-- A parsed `WsBookMessage` (polymarket_ws.rs 29-46) for one token:
the `[[price, size], ...]` string arrays parsed to rationals. -/
structure WsMessage where
  bids : List (ℚ × ℚ)
  asks : List (ℚ × ℚ)
  timestamp : ℕ

/-- Embeds `PriceUpdate` (src/ports/market_feed.rs 12-30), identifier and
size fields elided down to what the engine reads. -/
structure PriceUpdateM where
  bestBid : Option ℚ
  bestAsk : Option ℚ
  midPrice : Option ℚ
  timestampMs : ℕ
deriving DecidableEq

/-- First level's price (`.first()` then `.first()` parse,
polymarket_ws.rs 183-193). -/
def bestOf (levels : List (ℚ × ℚ)) : Option ℚ :=
  levels.head?.map Prod.fst

/-- Mid-price from best bid/ask (polymarket_ws.rs 207-210). -/
def midOf (bestBid bestAsk : Option ℚ) : Option ℚ :=
  match bestBid, bestAsk with
  | some b, some a => some ((b + a) / 2)
  | _, _ => none

/-- The debounce guard of `handle_message` (polymarket_ws.rs
223-228): suppress when both a new mid and a stored baseline exist
and the relative change is below the threshold. -/
def debounceSuppressed (minDeltaPct : ℚ)
    (lastMid midPrice : Option ℚ) : Bool :=
  match midPrice, lastMid with
  | some mid, some last => decide (|(mid - last) / last| < minDeltaPct)
  | _, _ => false

/-- Embeds `PolymarketFeed::new` hardcodes `min_delta_pct = 0.005`
(polymarket_ws.rs 74-80). -/
def minDeltaPctDefault : ℚ := 1/200

/-- Embeds `PolymarketFeed::handle_message` (polymarket_ws.rs 168-276) for a
single token's parsed message: returns the updated `TokenState` and
the broadcast `PriceUpdate`, if any. -/
def handleMessage (minDeltaPct : ℚ) (st : TokenState)
    (msg : WsMessage) : TokenState × Option PriceUpdateM :=
  if debounceSuppressed minDeltaPct st.lastMid
      (midOf (bestOf msg.bids) (bestOf msg.asks)) then
    (st, none)
  else
    ({ lastMid := midOf (bestOf msg.bids) (bestOf msg.asks)
       lastSnapshot := some
         { bids := msg.bids, asks := msg.asks,
           sequence := msg.timestamp, timestampMs := msg.timestamp } },
     some
       { bestBid := bestOf msg.bids
         bestAsk := bestOf msg.asks
         midPrice := midOf (bestOf msg.bids) (bestOf msg.asks)
         timestampMs := msg.timestamp })

/-- C8: the first update for a token is always broadcast; with a
stored baseline `last ≠ 0` and a present mid, an update with relative
change `< δ` is suppressed (not broadcast, state unchanged), while an
update with relative change `≥ δ` is broadcast and its mid becomes the
new baseline (the default δ is 0.005 = `minDeltaPctDefault`). -/
theorem feed_debounce (δ : ℚ) (st : TokenState) (msg : WsMessage) :
    (st.lastMid = none → ((handleMessage δ st msg).2).isSome = true) ∧
    (∀ last mid, st.lastMid = some last →
      midOf (bestOf msg.bids) (bestOf msg.asks) = some mid →
      ((|(mid - last) / last| < δ →
          handleMessage δ st msg = (st, none)) ∧
       (δ ≤ |(mid - last) / last| →
          ((handleMessage δ st msg).2).isSome = true ∧
          ((handleMessage δ st msg).1).lastMid = some mid))) := by
  constructor
  · intro hnone
    unfold handleMessage
    have hsup : debounceSuppressed δ st.lastMid
        (midOf (bestOf msg.bids) (bestOf msg.asks)) = false := by
      unfold debounceSuppressed
      rw [hnone]
      cases midOf (bestOf msg.bids) (bestOf msg.asks) <;> rfl
    rw [hsup]
    simp
  · intro last mid hlast hmid
    constructor
    · intro hsmall
      unfold handleMessage
      have hsup : debounceSuppressed δ st.lastMid
          (midOf (bestOf msg.bids) (bestOf msg.asks)) = true := by
        unfold debounceSuppressed
        rw [hlast, hmid]
        simpa using hsmall
      rw [hsup]
      simp
    · intro hbig
      unfold handleMessage
      have hsup : debounceSuppressed δ st.lastMid
          (midOf (bestOf msg.bids) (bestOf msg.asks)) = false := by
        unfold debounceSuppressed
        rw [hlast, hmid]
        simpa using not_lt.mpr hbig
      rw [hsup]
      simp [hmid]

/-- C8 (witness): with baseline mid 0.5 and a new book mid 0.5
(relative change 0 < 0.005) the update is suppressed and the state is
unchanged. -/
theorem feed_debounce_witness :
    handleMessage minDeltaPctDefault
      { lastMid := some (1/2), lastSnapshot := none }
      { bids := [(499/1000, 1)], asks := [(501/1000, 1)],
        timestamp := 7 } =
    ({ lastMid := some (1/2), lastSnapshot := none }, none) := by
  have h := (feed_debounce minDeltaPctDefault
    { lastMid := some (1/2), lastSnapshot := none }
    { bids := [(499/1000, 1)], asks := [(501/1000, 1)],
      timestamp := 7 }).2 (1/2) (1/2) rfl
    (by norm_num [midOf, bestOf])
  exact h.1 (by norm_num [minDeltaPctDefault])

/-- C9 (counterexample): the fan-in performs no sequence check. With a
stored snapshot at sequence 100, a message with timestamp/sequence 50
(≤ 100) and a large mid change is still broadcast and still replaces
the stored state, contradicting the claimed out-of-order drop. -/
theorem feed_no_sequence_check :
    (50 : ℕ) ≤ 100 ∧
    ((handleMessage minDeltaPctDefault
        { lastMid := some (1/2),
          lastSnapshot := some
            { bids := [(49/100, 10)], asks := [(51/100, 10)],
              sequence := 100, timestampMs := 100 } }
        { bids := [(3/5, 5)], asks := [(7/10, 5)],
          timestamp := 50 }).2).isSome = true ∧
    ((handleMessage minDeltaPctDefault
        { lastMid := some (1/2),
          lastSnapshot := some
            { bids := [(49/100, 10)], asks := [(51/100, 10)],
              sequence := 100, timestampMs := 100 } }
        { bids := [(3/5, 5)], asks := [(7/10, 5)],
          timestamp := 50 }).1).lastMid ≠ some (1/2) := by
  refine ⟨by norm_num, ?_, ?_⟩ <;>
    norm_num [handleMessage, debounceSuppressed, midOf, bestOf,
      minDeltaPctDefault, abs_of_nonneg]

/-- C9 (amended): `handle_message` carries no per-token sequence
state and never compares sequence numbers: its emission decision and
resulting debounce baseline are identical for two messages that
differ only in their timestamp, so a message with a stale
sequence/timestamp is processed exactly like a fresh one (only the
debounce governs dropping). -/
theorem feed_ignores_sequence_order (δ : ℚ) (st : TokenState)
    (bids asks : List (ℚ × ℚ)) (t1 t2 : ℕ) :
    ((handleMessage δ st ⟨bids, asks, t1⟩).2).isSome =
      ((handleMessage δ st ⟨bids, asks, t2⟩).2).isSome ∧
    ((handleMessage δ st ⟨bids, asks, t1⟩).1).lastMid =
      ((handleMessage δ st ⟨bids, asks, t2⟩).1).lastMid := by
  unfold handleMessage
  by_cases hsup : debounceSuppressed δ st.lastMid
      (midOf (bestOf bids) (bestOf asks)) = true
  · simp [hsup]
  · rw [Bool.not_eq_true] at hsup
    simp [hsup]

/-- Embeds `BayesianEstimator::update` (src/domain/bayesian.rs 66-73), the
f64 EWMA path used by the engine: first observation is taken as-is,
later ones smoothed with factor alpha. -/
def bayesUpdate (alpha : ℚ) (smoothed : Option ℚ)
    (observation : ℚ) : ℚ :=
  match smoothed with
  | some prev => prev * (1 - alpha) + observation * alpha
  | none => observation

/-- Outcome of one `process_update` call: the early-return skip paths
(each returns `Ok(())`) or the maker-order emission of step 8. -/
inductive ProcessOutcome
  | skippedMid
  | skippedEdge
  | skippedRisk
  | skippedSize
  | placeOrder (price size : ℚ) (isBuy : Bool)
deriving DecidableEq

/-- Embeds `ArbitrageEngine::process_update`
(src/usecases/arbitrage_engine.rs 172-248): mid validation → Bayesian
EWMA → LMSR fair value → maker net edge vs best ask (0 when the ask is
absent) → min-edge gate → `can_trade` gate → Kelly sizing with the
queried bankroll → maker-order emission. Returns the updated smoothed
probability and the outcome. -/
def processUpdate (minEdge alpha : ℚ) (kc : KellyCriterion)
    (smoothed : Option ℚ) (rm : RiskState) (now : ℕ)
    (u : PriceUpdateM) (bankroll : ℚ) : Option ℚ × ProcessOutcome :=
  match u.midPrice with
  | none => (smoothed, .skippedMid)
  | some mid =>
      if ¬ (0 < mid ∧ mid < 1) then (smoothed, .skippedMid)
      else
        let prob := bayesUpdate alpha smoothed mid
        let fair := LmsrPricer.price prob
        let edge := match u.bestAsk with
          | some bestAsk => FeeCalculator.new_maker.net_edge fair bestAsk true
          | none => 0
        if |edge| < minEdge then (some prob, .skippedEdge)
        else if ¬ canTrade rm now then (some prob, .skippedRisk)
        else
          if kc.position_size_usdc bankroll prob fair < 1 then
            (some prob, .skippedSize)
          else
            (some prob,
              .placeOrder fair (kc.position_size_usdc bankroll prob fair)
                (edge > 0))

/-- C10: when `best_ask` is absent the engine computes edge 0, so with
any positive `min_edge` every such update is skipped at the
minimum-edge threshold (or earlier at mid validation) and no order is
ever emitted; and the outcome never depends on `best_bid` — no
sell-side edge is computed. -/
theorem engine_no_ask_skips (minEdge alpha : ℚ) (kc : KellyCriterion)
    (smoothed : Option ℚ) (rm : RiskState) (now : ℕ)
    (u : PriceUpdateM) (bankroll : ℚ)
    (hask : u.bestAsk = none) (hpos : 0 < minEdge) :
    (∀ mid, u.midPrice = some mid → 0 < mid → mid < 1 →
      (processUpdate minEdge alpha kc smoothed rm now u bankroll).2 =
        ProcessOutcome.skippedEdge) ∧
    (∀ price size isBuy,
      (processUpdate minEdge alpha kc smoothed rm now u bankroll).2 ≠
        ProcessOutcome.placeOrder price size isBuy) ∧
    (∀ b, processUpdate minEdge alpha kc smoothed rm now
        { u with bestBid := b } bankroll =
      processUpdate minEdge alpha kc smoothed rm now u bankroll) := by
  have hedge : ∀ mid, u.midPrice = some mid → 0 < mid → mid < 1 →
      (processUpdate minEdge alpha kc smoothed rm now u bankroll).2 =
        ProcessOutcome.skippedEdge := by
    intro mid hmid h0 h1
    unfold processUpdate
    simp only [hmid, hask]
    rw [if_neg (not_not_intro ⟨h0, h1⟩), if_pos (by simpa using hpos)]
  refine ⟨hedge, ?_, ?_⟩
  · intro price size isBuy
    cases hmid : u.midPrice with
    | none =>
        unfold processUpdate
        simp [hmid]
    | some mid =>
        by_cases hv : 0 < mid ∧ mid < 1
        · rw [hedge mid hmid hv.1 hv.2]
          simp
        · unfold processUpdate
          simp only [hmid]
          rw [if_pos hv]
          simp
  · intro b
    cases u with
    | mk bid ask mid ts => rfl

/-- C10 (witness): a concrete update with no ask and valid mid is
skipped at the edge threshold. -/
theorem engine_no_ask_skips_witness :
    (processUpdate (1/50) (7/10) KellyCriterion.default none
      (RiskManager.new (1/50) 100 500 50 3 300) 0
      { bestBid := none, bestAsk := none, midPrice := some (1/2),
        timestampMs := 0 } 1000).2 = ProcessOutcome.skippedEdge :=
  (engine_no_ask_skips (1/50) (7/10) KellyCriterion.default none
    (RiskManager.new (1/50) 100 500 50 3 300) 0
    { bestBid := none, bestAsk := none, midPrice := some (1/2),
      timestampMs := 0 } 1000 rfl (by norm_num)).1
    (1/2) rfl (by norm_num) (by norm_num)

/-- C1: `process_update` gates order emission only on `can_trade()`,
never on `can_open_position(size, bankroll)`. Failing input: fresh
engine, `min_edge = 0.02`, quarter-Kelly, risk limits with
`max_position_size = 50`; update with mid 0.995 and best ask 0.90,
bankroll 1000. The pipeline emits a maker order of size 62.5 although
`can_open_position(62.5, 1000)` is false (62.5 > 50); the order
manager then places it. -/
theorem engine_places_order_without_can_open :
    (processUpdate (1/50) (7/10) KellyCriterion.default none
        (RiskManager.new (1/50) 50 500 50 3 300) 0
        { bestBid := none, bestAsk := some (9/10),
          midPrice := some (199/200), timestampMs := 0 } 1000).2 =
      ProcessOutcome.placeOrder (99/100) (125/2) true ∧
    canOpenPosition (RiskManager.new (1/50) 50 500 50 3 300)
      (125/2) 1000 0 = false ∧
    (placeMakerOrder (OrderManager.new 50 0) 0 true).1 = some true := by
  refine ⟨?_, ?_, ?_⟩
  · unfold processUpdate
    norm_num [bayesUpdate, LmsrPricer.price, FeeCalculator.net_edge,
      FeeCalculator.new_maker, canTrade, RiskManager.new,
      KellyCriterion.position_size_usdc, KellyCriterion.optimal_fraction,
      kellyFull, KellyCriterion.default, roundDp2, roundHalfEven,
      min_def, max_def]
    rw [if_neg (show ¬(|(9:ℚ)/100| < 1/50) from by
      rw [abs_of_pos (by norm_num : (0:ℚ) < 9/100)]; norm_num)]
  · norm_num [canOpenPosition, canTrade, RiskManager.new]
  · norm_num [placeMakerOrder, OrderManager.new, pruneTimestamps,
      intervalTooSoon]

end PolyBot
